import Mathlib

/-!
Verification of the jira-mcp JiraApiService extraction/normalization pipeline.

A shallow Lean embedding of src/services/jira-api.ts: the Atlassian
Document Format (ADF) tree walkers (extractTextContent,
extractIssueMentions), the issue normalizer (cleanIssue, cleanComment),
and the pure composition logic of getIssueWithComments, with HTTP fetch
results passed in explicitly as Except values.

Modelling conventions:
- a JS string field that may be undefined is Option String; JS string
  truthiness (undefined and "" are falsy) is strTruthy;
- a || b on strings is jsOr, on objects jsOrObj;
- an ADF node's content field is a List Node, with an absent content
  field modelled as []: both functions that read it (extractTextContent
  and processNode) treat undefined content and an empty array
  identically, since a JS array is truthy even when empty;
- a thrown JS error is Except.error carrying the message string;
- the two regexes /\/browse\/([A-Z]+-\d+)/ and /[A-Z]+-\d+/g are
  implemented as explicit scanners over List Char; for these patterns
  the regex engine never needs backtracking inside a candidate match
  (a shorter [A-Z]+ or \d+ run can never help), so leftmost-greedy
  scanning is exact.
-/

/-- JS string truthiness: undefined and the empty string are falsy. -/
def strTruthy : Option String → Bool
  | some s => !(s == "")
  | none => false

/-- JS a || b where a and b are possibly-undefined strings. -/
def jsOr (a b : Option String) : Option String :=
  if strTruthy a then a else b

/-- JS a || b where a and b are possibly-undefined objects
(any present object is truthy). -/
def jsOrObj {α : Type} (a b : Option α) : Option α :=
  if a.isSome then a else b

/-- Character class [A-Z]. -/
def isUpperAZ (c : Char) : Bool := 'A' ≤ c && c ≤ 'Z'

/-- Character class \d (ASCII digits). -/
def isDigit09 (c : Char) : Bool := '0' ≤ c && c ≤ '9'

/-- Does the literal pattern occur at the very start of s? -/
def matchesLit : List Char → List Char → Bool
  | [], _ => true
  | _ :: _, [] => false
  | p :: ps, c :: cs => p == c && matchesLit ps cs

/-- Substring containment on character lists, as JS String.includes. -/
def containsSub (s pat : List Char) : Bool :=
  match s with
  | [] => matchesLit pat []
  | _ :: rest => matchesLit pat s || containsSub rest pat

/-- JS String.prototype.includes. -/
def strIncludes (s pat : String) : Bool := containsSub s.toList pat.toList

/-- Attempt to match the regex [A-Z]+-\d+ anchored at the head of s,
greedily; on success return the matched characters and the remainder of
s after the match. -/
def keyMatchAt (s : List Char) : Option (List Char × List Char) :=
  let letters := s.takeWhile isUpperAZ
  match s.dropWhile isUpperAZ with
  | c :: rest2 =>
    if c = '-' then
      let digits := rest2.takeWhile isDigit09
      if letters = [] then none
      else if digits = [] then none
      else some (letters ++ '-' :: digits, rest2.dropWhile isDigit09)
    else none
  | [] => none

/-- All non-overlapping left-to-right matches of /[A-Z]+-\d+/g in s,
as produced by JS String.prototype.match with the global flag; fuel
bounds the number of scanning steps (each step consumes at least one
character, so fuel = s.length suffices). -/
def scanKeysAux : Nat → List Char → List (List Char)
  | 0, _ => []
  | _, [] => []
  | fuel + 1, c :: rest =>
    match keyMatchAt (c :: rest) with
    | some (m, after) => m :: scanKeysAux fuel after
    | none => scanKeysAux fuel rest

/-- JS text.match(/[A-Z]+-\d+/g) || [] on the character list of text. -/
def scanKeys (s : List Char) : List (List Char) := scanKeysAux s.length s

/-- The capture group of /\/browse\/([A-Z]+-\d+)/ when the regex matches
at the very start of s. -/
def browseKeyAt (s : List Char) : Option (List Char) :=
  if matchesLit "/browse/".toList s then
    match keyMatchAt (s.drop 8) with
    | some (m, _) => some m
    | none => none
  else none

/-- JS url.match(/\/browse\/([A-Z]+-\d+)/): the capture group of the
leftmost match, or none when the regex does not match anywhere. -/
def browseMatch : List Char → Option (List Char)
  | [] => none
  | c :: rest =>
    match browseKeyAt (c :: rest) with
    | some m => some m
    | none => browseMatch rest

/-- An ADF node as consumed by the walkers: a type tag, an optional
text value, an optional attrs.url, and the list of child nodes
(an absent content field is modelled as the empty list). -/
inductive Node where
  | mk (type : Option String) (text : Option String) (attrsUrl : Option String)
      (content : List Node)

/-- The type tag of a node. -/
def Node.typeTag : Node → Option String
  | .mk t _ _ _ => t

/-- The text value of a node. -/
def Node.textVal : Node → Option String
  | .mk _ x _ _ => x

/-- The attrs.url value of a node. -/
def Node.urlVal : Node → Option String
  | .mk _ _ u _ => u

/-- The child list of a node. -/
def Node.childList : Node → List Node
  | .mk _ _ _ c => c

mutual

/-- The contribution of one node inside extractTextContent's map
callback: a "text" node yields node.text || "", any other node yields
the extraction of its content (an absent content yields ""). -/
def textOfNode : Node → String
  | .mk type text _ content =>
    if type = some "text" then text.getD ""
    else extractTextContentList content

/-- JiraApiService.extractTextContent on a present content array:
content.map(node => ...).join("") written as direct recursion. -/
def extractTextContentList : List Node → String
  | [] => ""
  | n :: rest => textOfNode n ++ extractTextContentList rest

end

/-- JiraApiService.extractTextContent including the
!Array.isArray(content) guard: a missing (or non-array) argument is
none and yields the empty string. -/
def extractTextContent : Option (List Node) → String
  | none => ""
  | some content => extractTextContentList content

/-- A cross-issue reference as pushed by the walkers and the
normalizer (the relatedIssues element type of CleanJiraIssue). -/
structure Mention where
  key : String
  type : String
  summary : Option String := none
  relationship : Option String := none
  source : String
  commentId : Option String := none
deriving Repr, DecidableEq

/-- The inlineCard rule of processNode: a node of type "inlineCard"
with a truthy attrs.url whose url matches the browse regex yields one
mention carrying the capture group as key. -/
def inlineCardMentions (source : String) (commentId : Option String) (n : Node) :
    List Mention :=
  if n.typeTag == some "inlineCard" && strTruthy n.urlVal then
    match browseMatch (n.urlVal.getD "").toList with
    | some k =>
      [{ key := String.mk k, type := "mention", source := source, commentId := commentId }]
    | none => []
  else []

/-- The text rule of processNode: a node of type "text" with truthy
text yields one mention per global-regex match in its text, in order. -/
def textRuleMentions (source : String) (commentId : Option String) (n : Node) :
    List Mention :=
  if n.typeTag == some "text" && strTruthy n.textVal then
    (scanKeys (n.textVal.getD "").toList).map fun k =>
      { key := String.mk k, type := "mention", source := source, commentId := commentId }
  else []

mutual

/-- The processNode closure of JiraApiService.extractIssueMentions: the
inlineCard rule, then the text rule, then the recursion into content,
with the mutable mentions accumulator rendered as list concatenation in
push order. -/
def processNode (source : String) (commentId : Option String) : Node → List Mention
  | .mk type text attrsUrl content =>
    inlineCardMentions source commentId (.mk type text attrsUrl content) ++
    textRuleMentions source commentId (.mk type text attrsUrl content) ++
    processList source commentId content

/-- content.forEach(processNode) over a node list. -/
def processList (source : String) (commentId : Option String) : List Node → List Mention
  | [] => []
  | n :: rest => processNode source commentId n ++ processList source commentId rest

end

/-- One step of building a JS Map from a (key, value) pair list:
Map.prototype.set updates an existing key in place (keeping its
original position) and appends a fresh key at the end. -/
def mapUpsert (acc : List (String × Mention)) (k : String) (v : Mention) :
    List (String × Mention) :=
  if acc.any (fun p => p.1 == k) then
    acc.map (fun p => if p.1 == k then (p.1, v) else p)
  else acc ++ [(k, v)]

/-- Building a JS Map from a list of mentions keyed by .key, in order. -/
def jsMapInsertAll (acc : List (String × Mention)) : List Mention → List (String × Mention)
  | [] => acc
  | m :: rest => jsMapInsertAll (mapUpsert acc m.key m) rest

/-- [...new Map(mentions.map(m => [m.key, m])).values()]: per-key-last
values in order of each key's first insertion. -/
def jsMapDedup (ms : List Mention) : List Mention :=
  (jsMapInsertAll [] ms).map (·.2)

/-- JiraApiService.extractIssueMentions: collect mentions by the
depth-first traversal, then deduplicate through a JS Map keyed by
mention key. -/
def extractIssueMentions (content : List Node) (source : String)
    (commentId : Option String) : List Mention :=
  jsMapDedup (processList source commentId content)

/-- A normalized comment (CleanComment in src/types). -/
structure CleanComment where
  id : String
  body : String
  author : Option String := none
  created : String
  updated : String
  mentions : List Mention
deriving Repr, DecidableEq

/-- The {id, key, summary} record shape used for parent, epicLink and
children entries of a normalized issue. -/
structure IssueRef where
  id : String
  key : String
  summary : Option String := none
deriving Repr, DecidableEq

/-- A normalized issue (CleanJiraIssue in src/types). -/
structure CleanJiraIssue where
  id : String
  key : String
  summary : Option String := none
  status : Option String := none
  created : Option String := none
  updated : Option String := none
  description : String
  relatedIssues : List Mention
  parent : Option IssueRef := none
  epicLink : Option IssueRef := none
  children : Option (List IssueRef) := none
  comments : Option (List CleanComment) := none
deriving Repr, DecidableEq

/-- One side of a raw issuelink (inwardIssue / outwardIssue): a key and
an optional fields.summary. -/
structure RawLinkedIssue where
  key : String
  fieldsSummary : Option String := none
deriving Repr, DecidableEq

/-- The type object of a raw issuelink, carrying the inward and outward
relationship labels. -/
structure RawLinkType where
  inward : Option String := none
  outward : Option String := none
deriving Repr, DecidableEq

/-- A raw issuelink entry from the issue payload. -/
structure RawIssueLink where
  inwardIssue : Option RawLinkedIssue := none
  outwardIssue : Option RawLinkedIssue := none
  type : RawLinkType
deriving Repr, DecidableEq

/-- A raw parent or subtask stub: id, key and nested fields.summary. -/
structure RawStub where
  id : String
  key : String
  fieldsSummary : Option String := none
deriving Repr, DecidableEq

/-- The fields object of a raw issue payload, restricted to the members
cleanIssue reads; absent members are none. -/
structure RawFields where
  summary : Option String := none
  statusName : Option String := none
  created : Option String := none
  updated : Option String := none
  descriptionContent : Option (List Node) := none
  issuelinks : Option (List RawIssueLink) := none
  parent : Option RawStub := none
  customfield10014 : Option String := none
  subtasks : Option (List RawStub) := none

/-- A raw issue payload as consumed by cleanIssue. -/
structure RawIssue where
  id : String
  key : String
  fields : Option RawFields := none

/-- A raw comment payload as consumed by cleanComment. -/
structure RawComment where
  id : String
  bodyContent : Option (List Node) := none
  authorDisplayName : Option String := none
  created : String
  updated : String

/-- JiraApiService.cleanComment. -/
def cleanComment (comment : RawComment) : CleanComment :=
  { id := comment.id
    body := match comment.bodyContent with
      | some c => extractTextContentList c
      | none => ""
    author := comment.authorDisplayName
    created := comment.created
    updated := comment.updated
    mentions := match comment.bodyContent with
      | some c => extractIssueMentions c "comment" (some comment.id)
      | none => [] }

/-- The issuelinks map callback of cleanIssue: linkedIssue =
link.inwardIssue || link.outwardIssue, relationship = link.type.inward
|| link.type.outward; reading .key of an undefined linkedIssue is the
thrown TypeError, rendered as Except.error. -/
def mapLink (link : RawIssueLink) : Except String Mention :=
  match jsOrObj link.inwardIssue link.outwardIssue with
  | none => .error "TypeError: Cannot read properties of undefined (reading key)"
  | some linkedIssue =>
    .ok { key := linkedIssue.key
          type := "link"
          summary := linkedIssue.fieldsSummary
          relationship := jsOr link.type.inward link.type.outward
          source := "description" }

/-- issuelinks.map(link => ...) in cleanIssue: the callback runs left
to right and the first thrown TypeError aborts the whole map. -/
def mapLinks : List RawIssueLink → Except String (List Mention)
  | [] => .ok []
  | l :: rest =>
    match mapLink l with
    | .error e => .error e
    | .ok m =>
      match mapLinks rest with
      | .error e => .error e
      | .ok ms => .ok (m :: ms)

/-- The cleanedIssue record as first constructed by cleanIssue,
including the description-mentions step (relatedIssues = mentions when
the description is present and produced at least one mention, else the
initial empty list). -/
def cleanIssueBase (issue : RawIssue) : CleanJiraIssue :=
  let description :=
    match issue.fields.bind (·.descriptionContent) with
    | some c => extractTextContentList c
    | none => ""
  let cleanedIssue : CleanJiraIssue :=
    { id := issue.id
      key := issue.key
      summary := issue.fields.bind (·.summary)
      status := issue.fields.bind (·.statusName)
      created := issue.fields.bind (·.created)
      updated := issue.fields.bind (·.updated)
      description := description
      relatedIssues := [] }
  match issue.fields.bind (·.descriptionContent) with
  | some c =>
    let mentions := extractIssueMentions c "description" none
    if mentions.length > 0 then { cleanedIssue with relatedIssues := mentions }
    else cleanedIssue
  | none => cleanedIssue

/-- The parent, epicLink and subtasks steps of cleanIssue, applied to
the record built so far. -/
def applyParentEpicSubtasks (issue : RawIssue) (ci : CleanJiraIssue) : CleanJiraIssue :=
  let ci :=
    match issue.fields.bind (·.parent) with
    | some p =>
      { ci with parent := some { id := p.id, key := p.key, summary := p.fieldsSummary } }
    | none => ci
  let ci :=
    match issue.fields.bind (·.customfield10014) with
    | some cf =>
      if strTruthy (some cf) then
        { ci with epicLink := some { id := cf, key := cf, summary := none } }
      else ci
    | none => ci
  match issue.fields.bind (·.subtasks) with
  | some subtasks =>
    if subtasks.length > 0 then
      { ci with
          children := some (subtasks.map fun s =>
            { id := s.id, key := s.key, summary := s.fieldsSummary }) }
    else ci
  | none => ci

/-- JiraApiService.cleanIssue: the base record with description
mentions, then the issuelinks step (whose map may throw), then parent,
epicLink and subtasks. -/
def cleanIssue (issue : RawIssue) : Except String CleanJiraIssue :=
  let cleanedIssue := cleanIssueBase issue
  match issue.fields.bind (·.issuelinks) with
  | some issuelinks =>
    if issuelinks.length > 0 then
      match mapLinks issuelinks with
      | .error e => .error e
      | .ok links =>
        .ok (applyParentEpicSubtasks issue
          { cleanedIssue with relatedIssues := cleanedIssue.relatedIssues ++ links })
    else .ok (applyParentEpicSubtasks issue cleanedIssue)
  | none => .ok (applyParentEpicSubtasks issue cleanedIssue)

/-- The error message built by handleFetchError for a failed response:
message is the (possibly body-derived) error text, status the HTTP
status code. -/
def mkApiError (message : String) (status : Nat) : String :=
  "JIRA API Error" ++ (if message == "" then "" else ": " ++ message) ++
    " (Status: " ++ toString status ++ ")"

/-- The catch block of getIssueWithComments: a failure whose message
includes "(Status: 404)" is re-raised as a not-found error naming the
requested identifier; anything else is re-thrown unchanged. -/
def notFoundRemap (issueId : String) (e : String) : String :=
  if strIncludes e "(Status: 404)" then "Issue not found: " ++ issueId else e

/-- The pure composition of getIssueWithComments up to (and excluding)
the epic-summary step: the Promise.all of the two fetches with its
catch block, cleanIssue, cleanComment over every comment, and the
appending of the comment-derived mentions. -/
def assembleIssue (issueId : String) (issueFetch : Except String RawIssue)
    (commentsFetch : Except String (List RawComment)) :
    Except String CleanJiraIssue :=
  match issueFetch, commentsFetch with
  | .error e, _ => .error (notFoundRemap issueId e)
  | _, .error e => .error (notFoundRemap issueId e)
  | .ok issueData, .ok commentsData =>
    match cleanIssue issueData with
    | .error e => .error e
    | .ok issue =>
      let comments := commentsData.map cleanComment
      let commentMentions := comments.flatMap (·.mentions)
      .ok { issue with
              relatedIssues := issue.relatedIssues ++ commentMentions
              comments := some comments }

/-- The epic-summary step of getIssueWithComments: when the issue has
an epicLink, attempt the secondary fetch; on success write the fetched
fields.summary into epicLink.summary, on failure leave the issue
untouched (the error is only logged). -/
def fetchEpicStep (issue : CleanJiraIssue)
    (epicFetch : String → Except String (Option String)) : CleanJiraIssue :=
  match issue.epicLink with
  | some el =>
    match epicFetch el.key with
    | .ok s => { issue with epicLink := some { el with summary := s } }
    | .error _ => issue
  | none => issue

/-- JiraApiService.getIssueWithComments as a pure function of the fetch
outcomes: the issue fetch, the comments fetch, and the epic-summary
fetch keyed by epic key. -/
def getIssueWithComments (issueId : String) (issueFetch : Except String RawIssue)
    (commentsFetch : Except String (List RawComment))
    (epicFetch : String → Except String (Option String)) :
    Except String CleanJiraIssue :=
  match assembleIssue issueId issueFetch commentsFetch with
  | .error e => .error e
  | .ok issue => .ok (fetchEpicStep issue epicFetch)

/-- An ADF document as built by createAdfFromBody. -/
structure AdfDoc where
  version : Nat
  type : String
  content : List Node

/-- JiraApiService.createAdfFromBody: one paragraph holding one text
node carrying the whole body. -/
def createAdfFromBody (text : String) : AdfDoc :=
  { version := 1
    type := "doc"
    content := [Node.mk (some "paragraph") none none
      [Node.mk (some "text") (some text) none []]] }

/-- Spec-side dedup: keep each key's FIRST-encountered mention,
discard every later mention with the same key. -/
def dedupKeepFirst : List Mention → List Mention
  | [] => []
  | m :: rest => m :: dedupKeepFirst (rest.filter fun x => !(x.key == m.key))
termination_by l => l.length
decreasing_by
  simp only [List.length_cons]
  exact Nat.lt_succ_of_le (List.length_filter_le _ _)

/-- First-wins dedup on plain key lists. -/
def kdedup : List String → List String
  | [] => []
  | k :: rest => k :: kdedup (rest.filter fun x => !(x == k))
termination_by l => l.length
decreasing_by
  simp only [List.length_cons]
  exact Nat.lt_succ_of_le (List.length_filter_le _ _)

/-- Key-insertion order of a JS Map: starting from the already-present
keys cs, append each incoming key not yet present, in order. -/
def insKeys (cs : List String) : List String → List String
  | [] => cs
  | k :: rest => insKeys (if cs.any (· == k) then cs else cs ++ [k]) rest

/-- The uniform mention shape pushed by one extractIssueMentions call:
all fields other than the key are determined by the call. -/
def mkMentionOf (source : String) (commentId : Option String) (k : String) : Mention :=
  { key := k, type := "mention", source := source, commentId := commentId }

/-- Right-fold concatenation of a list of strings with no separator. -/
def strConcat : List String → String
  | [] => ""
  | s :: rest => s ++ strConcat rest

mutual

/-- Modelled from the spec's words for the Document Text Extractor: the
text value of every LEAF node with type "text"; non-text leaves
contribute the empty string, and a node with children contributes its
children's concatenation. -/
def specLeafText : Node → String
  | .mk type text _ [] => if type = some "text" then text.getD "" else ""
  | .mk _ _ _ (c :: cs) => specLeafTexts (c :: cs)

/-- specLeafText concatenated over a sibling sequence. -/
def specLeafTexts : List Node → String
  | [] => ""
  | n :: rest => specLeafText n ++ specLeafTexts rest

end

mutual

/-- The text values the code's traversal actually reads: every node of
type "text" contributes node.text (or "" when absent) and its children
are skipped; any other node contributes its children's values. -/
def visitedTextsNode : Node → List String
  | .mk type text _ content =>
    if type = some "text" then [text.getD ""] else visitedTexts content

/-- visitedTextsNode collected over a sibling sequence. -/
def visitedTexts : List Node → List String
  | [] => []
  | n :: rest => visitedTextsNode n ++ visitedTexts rest

end

mutual

/-- Does a node's subtree contain any node of type "text"? -/
def nodeHasText : Node → Bool
  | .mk type _ _ content => type == some "text" || listHasText content

/-- nodeHasText over a sibling sequence. -/
def listHasText : List Node → Bool
  | [] => false
  | n :: rest => nodeHasText n || listHasText rest

end

mutual

/-- Is every node of type "text" in the subtree childless? (The
structurally well-formed ADF case.) -/
def nodeTextChildless : Node → Bool
  | .mk type _ _ content =>
    (!(type == some "text") || content.isEmpty) && listTextChildless content

/-- nodeTextChildless over a sibling sequence. -/
def listTextChildless : List Node → Bool
  | [] => true
  | n :: rest => nodeTextChildless n && listTextChildless rest

end

/-- The description-derived mentions of a raw issue: the Mention
Extractor on the description content when present, else empty. -/
def descMentionsOf (issue : RawIssue) : List Mention :=
  match issue.fields.bind (·.descriptionContent) with
  | some c => extractIssueMentions c "description" none
  | none => []

/-- The issuelink-derived mentions of a raw issue: one entry per link
whose populated side exists, in order. -/
def linkMentionsOf (issue : RawIssue) : List Mention :=
  match issue.fields.bind (·.issuelinks) with
  | some ls => ls.filterMap fun l => (mapLink l).toOption
  | none => []

/-- The comment-derived mentions of a list of raw comments, in comment
order. -/
def commentMentionsOf (cmts : List RawComment) : List Mention :=
  (cmts.map cleanComment).flatMap (·.mentions)

/-- A text node that also carries children: legal for the walkers even
though well-formed ADF never produces it. -/
def textNodeWithChild : Node :=
  Node.mk (some "text") (some "A") none [Node.mk (some "text") (some "B") none []]

/-- A raw issuelink with only the outward issue populated but both
relationship labels present, as real link types always are. -/
def linkCexC2 : RawIssueLink :=
  { outwardIssue := some { key := "XYZ-9" }
    type := { inward := some "is blocked by", outward := some "blocks" } }

/-- An issue payload carrying only linkCexC2. -/
def issueCexC2 : RawIssue :=
  { id := "10", key := "A-1", fields := some { issuelinks := some [linkCexC2] } }

/-- The spec's own C2 example: an outward link whose type carries only
the outward label. -/
def linkExC2 : RawIssueLink :=
  { outwardIssue := some { key := "XYZ-9" }, type := { outward := some "blocks" } }

/-- An issue payload carrying only linkExC2. -/
def issueExC2 : RawIssue :=
  { id := "11", key := "A-2", fields := some { issuelinks := some [linkExC2] } }

/-- An issue whose only populated field is the epic-link custom field. -/
def rawEpicIssue : RawIssue :=
  { id := "1", key := "T-1", fields := some { customfield10014 := some "EPIC-1" } }

/-- The normalized issue assembleIssue produces from rawEpicIssue with
no comments. -/
def epicIssueResult : CleanJiraIssue :=
  { id := "1", key := "T-1", summary := none, status := none, created := none,
    updated := none, description := "", relatedIssues := [], parent := none,
    epicLink := some { id := "EPIC-1", key := "EPIC-1", summary := none },
    children := none, comments := some [] }

/-- An issue whose description text mentions DUP-1. -/
def dupIssue : RawIssue :=
  { id := "d", key := "D-0",
    fields := some { descriptionContent := some [Node.mk (some "text") (some "DUP-1") none []] } }

/-- A comment whose body also mentions DUP-1. -/
def dupComment : RawComment :=
  { id := "c1", bodyContent := some [Node.mk (some "text") (some "see DUP-1") none []],
    created := "t0", updated := "t1" }

/-- The DUP-1 mention as extracted from the description. -/
def dupDescMention : Mention :=
  { key := "DUP-1", type := "mention", source := "description" }

/-- The DUP-1 mention as extracted from the comment. -/
def dupCommentMention : Mention :=
  { key := "DUP-1", type := "mention", source := "comment", commentId := some "c1" }

/-- The normalized comment for dupComment. -/
def dupCleanComment : CleanComment :=
  { id := "c1", body := "see DUP-1", author := none, created := "t0", updated := "t1",
    mentions := [dupCommentMention] }

/-- The issue getIssueWithComments produces from dupIssue and
dupComment: two DUP-1 entries survive in relatedIssues. -/
def dupResult : CleanJiraIssue :=
  { id := "d", key := "D-0", summary := none, status := none, created := none,
    updated := none, description := "DUP-1",
    relatedIssues := [dupDescMention, dupCommentMention],
    parent := none, epicLink := none, children := none,
    comments := some [dupCleanComment] }

/-- The declarative shape of an issue key: one-or-more uppercase
letters, a dash, one-or-more digits. -/
def isIssueKeyShape (k : List Char) : Prop :=
  ∃ a b, k = a ++ '-' :: b ∧ a ≠ [] ∧ b ≠ [] ∧
    (∀ c ∈ a, isUpperAZ c = true) ∧ (∀ c ∈ b, isDigit09 c = true)

/-! ## Theorems -/

theorem inlineCardMentions_uniform (s : String) (cid : Option String) (n : Node) :
    ∀ m ∈ inlineCardMentions s cid n, m = mkMentionOf s cid m.key := by
  intro m hm
  unfold inlineCardMentions at hm
  split at hm
  · split at hm
    · simp only [List.mem_singleton] at hm
      subst hm; rfl
    · simp at hm
  · simp at hm

theorem textRuleMentions_uniform (s : String) (cid : Option String) (n : Node) :
    ∀ m ∈ textRuleMentions s cid n, m = mkMentionOf s cid m.key := by
  intro m hm
  unfold textRuleMentions at hm
  split at hm
  · simp only [List.mem_map] at hm
    obtain ⟨k, _, hk⟩ := hm
    subst hk; rfl
  · simp at hm

mutual

theorem processNode_uniform (s : String) (cid : Option String) :
    ∀ (n : Node), ∀ m ∈ processNode s cid n, m = mkMentionOf s cid m.key
  | .mk t x u c => by
    intro m hm
    unfold processNode at hm
    rcases List.mem_append.1 hm with h | h
    · rcases List.mem_append.1 h with h1 | h1
      · exact inlineCardMentions_uniform s cid _ m h1
      · exact textRuleMentions_uniform s cid _ m h1
    · exact processList_uniform s cid c m h

theorem processList_uniform (s : String) (cid : Option String) :
    ∀ (l : List Node), ∀ m ∈ processList s cid l, m = mkMentionOf s cid m.key
  | [] => by intro m hm; simp [processList] at hm
  | n :: rest => by
    intro m hm
    unfold processList at hm
    rcases List.mem_append.1 hm with h | h
    · exact processNode_uniform s cid n m h
    · exact processList_uniform s cid rest m h

end

theorem uniform_eq_map_keys (f : String → Mention) (ms : List Mention)
    (hu : ∀ m ∈ ms, m = f m.key) : ms = (ms.map (·.key)).map f := by
  induction ms with
  | nil => rfl
  | cons m rest ih =>
    simp only [List.map_cons]
    have h1 : m = f m.key := hu m (List.mem_cons_self _ _)
    have h2 := ih fun x hx => hu x (List.mem_cons_of_mem _ hx)
    rw [← h1, ← h2]

theorem pairMap_any (cs : List String) (f : String → Mention) (b : String) :
    ((cs.map fun k => (k, f k)).any fun p => p.1 == b) = cs.any (· == b) := by
  induction cs with
  | nil => rfl
  | cons c rest ih => simp only [List.map_cons, List.any_cons, ih]

theorem jsMapInsertAll_map (f : String → Mention) (hf : ∀ k, (f k).key = k) :
    ∀ (bs cs : List String),
    jsMapInsertAll (cs.map fun k => (k, f k)) (bs.map f) =
      (insKeys cs bs).map fun k => (k, f k)
  | [], cs => rfl
  | b :: rest, cs => by
    simp only [List.map_cons, jsMapInsertAll]
    have hkey : (f b).key = b := hf b
    have hup : mapUpsert (cs.map fun k => (k, f k)) (f b).key (f b) =
        (if cs.any (· == b) then cs else cs ++ [b]).map fun k => (k, f k) := by
      unfold mapUpsert
      rw [hkey, pairMap_any cs f b]
      by_cases h : cs.any (· == b) = true
      · rw [if_pos h, if_pos h, List.map_map]
        apply List.map_congr_left
        intro a _
        by_cases hab : (a == b) = true
        · have hab' : a = b := eq_of_beq hab
          subst hab'
          simp [Function.comp]
        · simp [Function.comp, hab]
      · rw [if_neg h, if_neg h, List.map_append]
        rfl
    rw [hup, insKeys]
    by_cases h : cs.any (· == b) = true
    · simp only [h, if_true]
      exact jsMapInsertAll_map f hf rest cs
    · simp only [h, Bool.false_eq_true, if_false]
      exact jsMapInsertAll_map f hf rest (cs ++ [b])

theorem insKeys_eq_kdedup :
    ∀ (bs cs : List String),
    insKeys cs bs = cs ++ kdedup (bs.filter fun k => !(cs.any (· == k)))
  | [], cs => by simp [insKeys, kdedup]
  | b :: rest, cs => by
    rw [insKeys]
    by_cases h : cs.any (· == b) = true
    · simp only [h, if_true]
      rw [insKeys_eq_kdedup rest cs]
      have hfb : (b :: rest).filter (fun k => !(cs.any (· == k))) =
          rest.filter (fun k => !(cs.any (· == k))) := by
        simp [List.filter_cons, h]
      rw [hfb]
    · simp only [h, Bool.false_eq_true, if_false]
      rw [insKeys_eq_kdedup rest (cs ++ [b])]
      have hfb : (b :: rest).filter (fun k => !(cs.any (· == k))) =
          b :: rest.filter (fun k => !(cs.any (· == k))) := by
        simp [List.filter_cons, h]
      rw [hfb, List.append_assoc, kdedup, List.singleton_append]
      have hAB : (rest.filter fun k => !((cs ++ [b]).any (· == k))) =
          ((rest.filter fun k => !(cs.any (· == k))).filter fun x => !(x == b)) := by
        rw [List.filter_filter _ rest]
        apply List.filter_congr
        intro x _
        simp only [List.any_append, List.any_cons, List.any_nil, Bool.or_false,
          Bool.not_or]
        rw [Bool.and_comm]
        rw [show (b == x) = (x == b) from Bool.beq_comm]
      rw [hAB]

theorem dedupKeepFirst_map (f : String → Mention) (hf : ∀ k, (f k).key = k) :
    ∀ ks : List String, dedupKeepFirst (ks.map f) = (kdedup ks).map f
  | [] => by rw [List.map_nil, dedupKeepFirst, kdedup, List.map_nil]
  | k :: rest => by
    rw [List.map_cons, dedupKeepFirst, kdedup, List.map_cons]
    congr 1
    rw [List.filter_map]
    have hpred : ((fun x => !(x.key == (f k).key)) ∘ f) = fun x => !(x == k) := by
      funext x
      simp [Function.comp, hf]
    rw [hpred]
    exact dedupKeepFirst_map f hf (rest.filter fun x => !(x == k))
termination_by ks => ks.length
decreasing_by
  simp only [List.length_cons]
  exact Nat.lt_succ_of_le (List.length_filter_le _ _)

theorem extractIssueMentions_eq_keepFirst (content : List Node) (s : String)
    (cid : Option String) :
    extractIssueMentions content s cid = dedupKeepFirst (processList s cid content) := by
  have hf : ∀ k, (mkMentionOf s cid k).key = k := fun _ => rfl
  have hu := processList_uniform s cid content
  have h1 : processList s cid content =
      ((processList s cid content).map (·.key)).map (mkMentionOf s cid) :=
    uniform_eq_map_keys _ _ hu
  unfold extractIssueMentions jsMapDedup
  conv_lhs => rw [h1]
  conv_rhs => rw [h1]
  have h2 := jsMapInsertAll_map (mkMentionOf s cid) hf
    ((processList s cid content).map (·.key)) []
  simp only [List.map_nil] at h2
  rw [h2, List.map_map]
  have h3 : insKeys [] ((processList s cid content).map (·.key)) =
      kdedup ((processList s cid content).map (·.key)) := by
    rw [insKeys_eq_kdedup _ []]
    simp
  rw [h3, dedupKeepFirst_map (mkMentionOf s cid) hf]
  rfl

theorem extractTextContentList_append :
    ∀ (A B : List Node),
    extractTextContentList (A ++ B) = extractTextContentList A ++ extractTextContentList B
  | [], B => by simp [extractTextContentList]
  | n :: rest, B => by
    show extractTextContentList (n :: (rest ++ B)) =
      extractTextContentList (n :: rest) ++ extractTextContentList B
    simp only [extractTextContentList]
    rw [extractTextContentList_append rest B, String.append_assoc]

mutual

theorem textOfNode_eq_concat_visited :
    ∀ (n : Node), textOfNode n = strConcat (visitedTextsNode n)
  | .mk t x u c => by
    unfold textOfNode visitedTextsNode
    by_cases h : t = some "text"
    · simp only [h, if_true, if_pos]
      simp [strConcat]
    · rw [if_neg h, if_neg h]
      exact extractTextContentList_eq_concat_visited c

theorem extractTextContentList_eq_concat_visited :
    ∀ (l : List Node), extractTextContentList l = strConcat (visitedTexts l)
  | [] => rfl
  | n :: rest => by
    unfold extractTextContentList visitedTexts
    rw [textOfNode_eq_concat_visited n, extractTextContentList_eq_concat_visited rest]
    have : ∀ (a b : List String), strConcat (a ++ b) = strConcat a ++ strConcat b := by
      intro a b
      induction a with
      | nil => simp [strConcat]
      | cons s tl ih =>
        show strConcat (s :: (tl ++ b)) = strConcat (s :: tl) ++ strConcat b
        simp only [strConcat]
        rw [ih, String.append_assoc]
    rw [this]

end

mutual

theorem textOfNode_of_noText :
    ∀ (n : Node), nodeHasText n = false → textOfNode n = ""
  | .mk t x u c => by
    intro h
    unfold nodeHasText at h
    rw [Bool.or_eq_false_iff] at h
    unfold textOfNode
    have ht : ¬(t = some "text") := by
      intro hcontra
      rw [hcontra] at h
      simp at h
    rw [if_neg ht]
    exact extractTextContentList_of_noText c h.2

theorem extractTextContentList_of_noText :
    ∀ (l : List Node), listHasText l = false → extractTextContentList l = ""
  | [] => fun _ => rfl
  | n :: rest => by
    intro h
    unfold listHasText at h
    rw [Bool.or_eq_false_iff] at h
    unfold extractTextContentList
    rw [textOfNode_of_noText n h.1, extractTextContentList_of_noText rest h.2]
    rfl

end

mutual

theorem textOfNode_of_childless :
    ∀ (n : Node), nodeTextChildless n = true → textOfNode n = specLeafText n
  | .mk t x u c => by
    intro h
    unfold nodeTextChildless at h
    rw [Bool.and_eq_true] at h
    by_cases ht : t = some "text"
    · have hc : c = [] := by
        have := h.1
        rw [ht] at this
        simp at this
        exact List.isEmpty_iff.mp (by simpa using this)
      subst hc
      unfold textOfNode specLeafText
      rw [if_pos ht, if_pos ht]
    · unfold textOfNode
      rw [if_neg ht]
      cases c with
      | nil =>
        unfold specLeafText
        rw [if_neg ht]
        rfl
      | cons c1 cs =>
        unfold specLeafText
        exact extractTextContentList_of_childless (c1 :: cs) h.2

theorem extractTextContentList_of_childless :
    ∀ (l : List Node), listTextChildless l = true → extractTextContentList l = specLeafTexts l
  | [] => fun _ => rfl
  | n :: rest => by
    intro h
    unfold listTextChildless at h
    rw [Bool.and_eq_true] at h
    unfold extractTextContentList specLeafTexts
    rw [textOfNode_of_childless n h.1, extractTextContentList_of_childless rest h.2]

end

theorem mapLinks_ok : ∀ (ls : List RawIssueLink) (ms : List Mention),
    mapLinks ls = .ok ms → ms = ls.filterMap fun l => (mapLink l).toOption
  | [], ms => by
    intro h
    rw [mapLinks] at h
    cases h
    rfl
  | l :: rest, ms => by
    intro h
    rw [mapLinks] at h
    cases h1 : mapLink l with
    | error e => rw [h1] at h; simp at h
    | ok m =>
      rw [h1] at h
      cases h2 : mapLinks rest with
      | error e => rw [h2] at h; simp at h
      | ok ms2 =>
        rw [h2] at h
        cases h
        rw [List.filterMap_cons, h1]
        show m :: ms2 = m :: _
        rw [mapLinks_ok rest ms2 h2]

theorem cleanIssueBase_relatedIssues (issue : RawIssue) :
    (cleanIssueBase issue).relatedIssues = descMentionsOf issue := by
  unfold cleanIssueBase descMentionsOf
  cases h : issue.fields.bind (·.descriptionContent) with
  | none => rfl
  | some c =>
    simp only []
    by_cases hlen : (extractIssueMentions c "description" none).length > 0
    · rw [if_pos hlen]
    · rw [if_neg hlen]
      have : extractIssueMentions c "description" none = [] :=
        List.length_eq_zero.mp (Nat.eq_zero_of_not_pos hlen)
      rw [this]

theorem cleanIssueBase_epicLink (issue : RawIssue) :
    (cleanIssueBase issue).epicLink = none := by
  unfold cleanIssueBase
  cases h : issue.fields.bind (·.descriptionContent) with
  | none => rfl
  | some c =>
    simp only []
    split <;> rfl

theorem applyPES_relatedIssues (issue : RawIssue) (ci : CleanJiraIssue) :
    (applyParentEpicSubtasks issue ci).relatedIssues = ci.relatedIssues := by
  unfold applyParentEpicSubtasks
  cases issue.fields.bind (·.parent) <;>
    cases issue.fields.bind (·.customfield10014) <;>
    cases issue.fields.bind (·.subtasks) <;>
    simp only [] <;>
    (try split) <;>
    (try split) <;>
    rfl

theorem applyPES_epicLink (issue : RawIssue) (ci : CleanJiraIssue) :
    (applyParentEpicSubtasks issue ci).epicLink =
      (match issue.fields.bind (·.customfield10014) with
       | some cf =>
         if strTruthy (some cf) then some { id := cf, key := cf, summary := none }
         else ci.epicLink
       | none => ci.epicLink) := by
  unfold applyParentEpicSubtasks
  cases issue.fields.bind (·.parent) <;>
    cases issue.fields.bind (·.customfield10014) <;>
    cases issue.fields.bind (·.subtasks) <;>
    simp only [] <;>
    (try split) <;>
    (try split) <;>
    rfl

theorem cleanIssue_ok_relatedIssues (issue : RawIssue) (ci : CleanJiraIssue)
    (h : cleanIssue issue = .ok ci) :
    ci.relatedIssues = descMentionsOf issue ++ linkMentionsOf issue := by
  unfold cleanIssue at h
  cases hl : issue.fields.bind (·.issuelinks) with
  | none =>
    rw [hl] at h
    dsimp only at h
    cases h
    rw [applyPES_relatedIssues, cleanIssueBase_relatedIssues]
    unfold linkMentionsOf
    rw [hl]
    simp
  | some ls =>
    rw [hl] at h
    dsimp only at h
    by_cases hlen : ls.length > 0
    · rw [if_pos hlen] at h
      cases hm : mapLinks ls with
      | error e => rw [hm] at h; simp at h
      | ok links =>
        rw [hm] at h
        cases h
        rw [applyPES_relatedIssues]
        show (cleanIssueBase issue).relatedIssues ++ links = _
        rw [cleanIssueBase_relatedIssues]
        unfold linkMentionsOf
        rw [hl, mapLinks_ok ls links hm]
    · rw [if_neg hlen] at h
      cases h
      rw [applyPES_relatedIssues, cleanIssueBase_relatedIssues]
      have hnil : ls = [] := List.length_eq_zero.mp (Nat.eq_zero_of_not_pos hlen)
      subst hnil
      unfold linkMentionsOf
      rw [hl]
      simp

theorem cleanIssue_ok_epicLink (issue : RawIssue) (ci : CleanJiraIssue)
    (h : cleanIssue issue = .ok ci) :
    ∀ el, ci.epicLink = some el → el.summary = none := by
  intro el hel
  have hshape : ∃ mid : CleanJiraIssue, mid.epicLink = none ∧
      ci = applyParentEpicSubtasks issue mid := by
    unfold cleanIssue at h
    cases hl : issue.fields.bind (·.issuelinks) with
    | none =>
      rw [hl] at h
      dsimp only at h
      cases h
      exact ⟨cleanIssueBase issue, cleanIssueBase_epicLink issue, rfl⟩
    | some ls =>
      rw [hl] at h
      dsimp only at h
      by_cases hlen : ls.length > 0
      · rw [if_pos hlen] at h
        cases hm : mapLinks ls with
        | error e => rw [hm] at h; simp at h
        | ok links =>
          rw [hm] at h
          cases h
          refine ⟨_, ?_, rfl⟩
          show (cleanIssueBase issue).epicLink = none
          exact cleanIssueBase_epicLink issue
      · rw [if_neg hlen] at h
        cases h
        exact ⟨cleanIssueBase issue, cleanIssueBase_epicLink issue, rfl⟩
  obtain ⟨mid, hmid, hci⟩ := hshape
  rw [hci, applyPES_epicLink] at hel
  cases hcf : issue.fields.bind (·.customfield10014) with
  | none =>
    rw [hcf] at hel
    dsimp only at hel
    rw [hmid] at hel
    cases hel
  | some cf =>
    rw [hcf] at hel
    dsimp only at hel
    by_cases ht : strTruthy (some cf) = true
    · rw [if_pos ht] at hel
      cases hel
      rfl
    · rw [if_neg ht, hmid] at hel
      cases hel

theorem assembleIssue_ok (issueId : String) (raw : RawIssue) (cmts : List RawComment)
    (issue : CleanJiraIssue)
    (h : assembleIssue issueId (.ok raw) (.ok cmts) = .ok issue) :
    ∃ ci, cleanIssue raw = .ok ci ∧
      issue = { ci with
                  relatedIssues := ci.relatedIssues ++ commentMentionsOf cmts
                  comments := some (cmts.map cleanComment) } := by
  unfold assembleIssue at h
  dsimp only at h
  cases hc : cleanIssue raw with
  | error e => rw [hc] at h; simp at h
  | ok ci =>
    rw [hc] at h
    dsimp only at h
    cases h
    exact ⟨ci, rfl, rfl⟩

theorem matchesLit_self_append : ∀ (p t : List Char), matchesLit p (p ++ t) = true
  | [], _ => rfl
  | c :: ps, t => by
    show (c == c && matchesLit ps (ps ++ t)) = true
    rw [matchesLit_self_append ps t]
    simp

theorem containsSub_of_matchesLit (s p : List Char) (h : matchesLit p s = true) :
    containsSub s p = true := by
  cases s with
  | nil =>
    cases p with
    | nil => rfl
    | cons c ps => simp [matchesLit] at h
  | cons c rest =>
    rw [containsSub, h]
    rfl

theorem containsSub_tail (c : Char) (rest p : List Char) (h : containsSub rest p = true) :
    containsSub (c :: rest) p = true := by
  rw [containsSub, h]
  simp

theorem containsSub_of_infix (s p : List Char) (h : p <:+: s) : containsSub s p = true := by
  obtain ⟨pre, post, hsplit⟩ := h
  induction pre generalizing s with
  | nil =>
    subst hsplit
    exact containsSub_of_matchesLit _ _ (matchesLit_self_append p post)
  | cons c pre ih =>
    subst hsplit
    exact containsSub_tail c _ p (ih _ rfl)

theorem strIncludes_append_self (a b : String) : strIncludes (a ++ b) b = true := by
  unfold strIncludes
  apply containsSub_of_infix
  exact ⟨a.toList, [], by simp⟩

theorem mkApiError_404_split (m : String) :
    mkApiError m 404 =
      ("JIRA API Error" ++ (if m == "" then "" else ": " ++ m) ++ " ") ++ "(Status: 404)" := by
  have key : ∀ (x : String),
      ((x ++ " (Status: ") ++ "404") ++ ")" = (x ++ " ") ++ "(Status: 404)" := by
    intro x
    rw [String.append_assoc, String.append_assoc, String.append_assoc]
    apply congrArg
    decide
  exact key ("JIRA API Error" ++ (if m == "" then "" else ": " ++ m))

theorem notFoundRemap_404 (issueId m : String) :
    notFoundRemap issueId (mkApiError m 404) = "Issue not found: " ++ issueId := by
  unfold notFoundRemap
  rw [mkApiError_404_split m]
  rw [if_pos (strIncludes_append_self _ _)]

theorem fetchEpicStep_relatedIssues (issue : CleanJiraIssue)
    (ef : String → Except String (Option String)) :
    (fetchEpicStep issue ef).relatedIssues = issue.relatedIssues := by
  unfold fetchEpicStep
  cases issue.epicLink with
  | none => rfl
  | some el =>
    dsimp only
    cases ef el.key <;> rfl

/-- C1: for every document content array, extractIssueMentions equals
the traversal-order mention list deduplicated by key keeping each key's
first-encountered mention (with its metadata), output ordered by first
occurrence; in particular traversal keys PROJ-1, PROJ-2, PROJ-1 yield
exactly PROJ-1, PROJ-2 with the first PROJ-1's metadata. -/
theorem claim_mention_dedup_first_wins :
    (∀ (content : List Node) (s : String) (cid : Option String),
      extractIssueMentions content s cid = dedupKeepFirst (processList s cid content)) ∧
    processList "description" none
        [Node.mk (some "text") (some "PROJ-1 PROJ-2 PROJ-1") none []] =
      [{ key := "PROJ-1", type := "mention", source := "description" },
       { key := "PROJ-2", type := "mention", source := "description" },
       { key := "PROJ-1", type := "mention", source := "description" }] ∧
    extractIssueMentions
        [Node.mk (some "text") (some "PROJ-1 PROJ-2 PROJ-1") none []] "description" none =
      [{ key := "PROJ-1", type := "mention", source := "description" },
       { key := "PROJ-2", type := "mention", source := "description" }] :=
  ⟨fun content s cid => extractIssueMentions_eq_keepFirst content s cid,
   by decide, by decide⟩

/-- C2 counterexample: on a link with only outwardIssue populated but a
present inward label, cleanIssue takes the inward label "is blocked by"
as relationship, not the outward label "blocks" the claim demands. -/
theorem claim_link_relationship_cex :
    linkCexC2.inwardIssue = none ∧
    linkCexC2.type.outward = some "blocks" ∧
    (cleanIssue issueCexC2).toOption.map (fun ci => ci.relatedIssues.map (·.relationship)) =
      some [some "is blocked by"] ∧
    (some "is blocked by" : Option String) ≠ some "blocks" := by
  refine ⟨rfl, rfl, by decide, by decide⟩

/-- C2 amended: the appended link mention's relationship is the
link-type's inward label whenever that label is present and non-empty,
regardless of which side of the link is populated, and the outward
label only otherwise; key and summary come from the populated side
(inwardIssue first). The spec's concrete example (only outwardIssue,
type.outward = "blocks", no inward label) still yields
key XYZ-9, type link, relationship blocks, source description. -/
theorem claim_link_relationship_amended :
    (∀ (link : RawIssueLink) (li : RawLinkedIssue),
      jsOrObj link.inwardIssue link.outwardIssue = some li →
      mapLink link = .ok
        { key := li.key
          type := "link"
          summary := li.fieldsSummary
          relationship :=
            if strTruthy link.type.inward then link.type.inward else link.type.outward
          source := "description" }) ∧
    (cleanIssue issueExC2).toOption.map (·.relatedIssues) =
      some [{ key := "XYZ-9", type := "link", relationship := some "blocks",
              source := "description" }] := by
  constructor
  · intro link li h
    unfold mapLink
    rw [h]
    dsimp only
    rfl
  · decide

/-- C3: whenever getIssueWithComments succeeds, the returned
relatedIssues is exactly description-derived mentions, then
issuelink-derived mentions, then comment-derived mentions, with no
cross-call dedup; in particular DUP-1 in both the description and one
comment yields two DUP-1 entries. -/
theorem claim_relatedIssues_concat :
    (∀ (issueId : String) (raw : RawIssue) (cmts : List RawComment)
      (ef : String → Except String (Option String)) (issue : CleanJiraIssue),
      getIssueWithComments issueId (.ok raw) (.ok cmts) ef = .ok issue →
      issue.relatedIssues =
        descMentionsOf raw ++ linkMentionsOf raw ++ commentMentionsOf cmts) ∧
    getIssueWithComments "D" (.ok dupIssue) (.ok [dupComment]) (fun _ => .error "x") =
      .ok dupResult ∧
    dupResult.relatedIssues = [dupDescMention, dupCommentMention] ∧
    dupDescMention.key = "DUP-1" ∧ dupCommentMention.key = "DUP-1" := by
  refine ⟨?_, by rfl, rfl, rfl, rfl⟩
  intro issueId raw cmts ef issue h
  unfold getIssueWithComments at h
  cases ha : assembleIssue issueId (.ok raw) (.ok cmts) with
  | error e => rw [ha] at h; simp at h
  | ok issue0 =>
    rw [ha] at h
    dsimp only at h
    cases h
    rw [fetchEpicStep_relatedIssues]
    obtain ⟨ci, hci, hissue⟩ := assembleIssue_ok issueId raw cmts issue0 ha
    rw [hissue]
    show ci.relatedIssues ++ commentMentionsOf cmts = _
    rw [cleanIssue_ok_relatedIssues raw ci hci, List.append_assoc]

/-- C4 counterexample: a node of type "text" with children contributes
only its own text to extractTextContent; the children's text "B" is
dropped, contradicting the process-self-then-children claim for the
Document Text Extractor. -/
theorem claim_self_then_children_cex :
    extractTextContentList [textNodeWithChild] = "A" ∧
    extractTextContentList [textNodeWithChild] ≠ "A" ++ "B" := by
  constructor
  · decide
  · decide

/-- C4 amended: the Mention Extractor processes a node's own rules and
then always recurses into its children regardless of type; the Document
Text Extractor recurses into children only for nodes whose type is not
"text" — a "text" node contributes node.text (or "") and its children
are ignored. -/
theorem claim_self_then_children_amended :
    (∀ (s : String) (cid : Option String) (t x u : Option String) (cs : List Node),
      processNode s cid (Node.mk t x u cs) =
        inlineCardMentions s cid (Node.mk t x u cs) ++
        textRuleMentions s cid (Node.mk t x u cs) ++ processList s cid cs) ∧
    (∀ (x u : Option String) (cs : List Node),
      textOfNode (Node.mk (some "text") x u cs) = x.getD "") ∧
    (∀ (t x u : Option String) (cs : List Node), t ≠ some "text" →
      textOfNode (Node.mk t x u cs) = extractTextContentList cs) := by
  refine ⟨?_, ?_, ?_⟩
  · intro s cid t x u cs
    rw [processNode]
  · intro x u cs
    rw [textOfNode, if_pos rfl]
  · intro t x u cs h
    rw [textOfNode, if_neg h]

/-- C4 amended witness at concrete inputs. -/
theorem claim_self_then_children_amended_witness :
    textOfNode (Node.mk (some "paragraph") (some "ignored") none
        [Node.mk (some "text") (some "B") none []]) =
      extractTextContentList [Node.mk (some "text") (some "B") none []] :=
  claim_self_then_children_amended.2.2 (some "paragraph") (some "ignored") none
    [Node.mk (some "text") (some "B") none []] (by decide)

/-- C5 counterexample: on a "text" node with children the extractor
returns the node's own text "A", not the leaf-concatenation "B" the
claim describes. -/
theorem claim_leaf_concat_cex :
    extractTextContentList [textNodeWithChild] = "A" ∧
    specLeafTexts [textNodeWithChild] = "B" ∧
    extractTextContentList [textNodeWithChild] ≠ specLeafTexts [textNodeWithChild] := by
  refine ⟨by decide, by decide, by decide⟩

/-- C5 amended: the extractor returns the depth-first left-to-right
separator-free concatenation of the text (or "" when absent) of every
"text"-typed node visited, where traversal does not descend into the
children of "text" nodes; missing input yields "", a tree with zero
"text" nodes yields "", and on every tree in which no "text" node has
children this equals the spec's leaf-text concatenation. -/
theorem claim_leaf_concat_amended :
    extractTextContent none = "" ∧
    (∀ l : List Node, extractTextContentList l = strConcat (visitedTexts l)) ∧
    (∀ l : List Node, listHasText l = false → extractTextContentList l = "") ∧
    (∀ l : List Node, listTextChildless l = true →
      extractTextContentList l = specLeafTexts l) :=
  ⟨rfl, extractTextContentList_eq_concat_visited,
   extractTextContentList_of_noText, extractTextContentList_of_childless⟩

/-- C5 amended witness at a concrete tree with no "text" nodes and,
separately, a concrete childless-text tree. -/
theorem claim_leaf_concat_amended_witness :
    extractTextContentList [Node.mk (some "paragraph") none none []] = "" ∧
    extractTextContentList [Node.mk (some "paragraph") none none
        [Node.mk (some "text") (some "hi") none []]] =
      specLeafTexts [Node.mk (some "paragraph") none none
        [Node.mk (some "text") (some "hi") none []]] :=
  ⟨claim_leaf_concat_amended.2.2.1 [Node.mk (some "paragraph") none none []] (by decide),
   claim_leaf_concat_amended.2.2.2 [Node.mk (some "paragraph") none none
     [Node.mk (some "text") (some "hi") none []]] (by decide)⟩

/-- C7: text extraction is a homomorphism over sibling concatenation. -/
theorem claim_text_extraction_append :
    ∀ (A B : List Node),
      extractTextContentList (A ++ B) =
        extractTextContentList A ++ extractTextContentList B :=
  extractTextContentList_append

/-- C8: when the single-issue fetch fails with status 404, the call
raises (rather than returning an issue), and the raised message
"Issue not found: <id>" includes the requested identifier. -/
theorem claim_not_found_error (issueId m : String)
    (commentsFetch : Except String (List RawComment))
    (epicFetch : String → Except String (Option String)) :
    getIssueWithComments issueId (.error (mkApiError m 404)) commentsFetch epicFetch =
      .error ("Issue not found: " ++ issueId) ∧
    strIncludes ("Issue not found: " ++ issueId) issueId = true := by
  constructor
  · unfold getIssueWithComments assembleIssue
    cases commentsFetch with
    | error e2 =>
      dsimp only
      rw [notFoundRemap_404]
    | ok cmts =>
      dsimp only
      rw [notFoundRemap_404]
  · exact strIncludes_append_self "Issue not found: " issueId

/-- C9: a failing epic-summary fetch is swallowed: getIssueWithComments
still returns exactly the issue assembled before the epic step (all
fields untouched), and that issue's epicLink.summary is still unset. -/
theorem claim_epic_failure_suppressed (issueId : String)
    (issueFetch : Except String RawIssue)
    (commentsFetch : Except String (List RawComment)) (e : String)
    (issue : CleanJiraIssue) (el : IssueRef)
    (h : assembleIssue issueId issueFetch commentsFetch = .ok issue)
    (hel : issue.epicLink = some el) :
    getIssueWithComments issueId issueFetch commentsFetch (fun _ => .error e) = .ok issue ∧
    el.summary = none := by
  constructor
  · unfold getIssueWithComments
    rw [h]
    dsimp only
    unfold fetchEpicStep
    rw [hel]
  · cases issueFetch with
    | error e2 =>
      unfold assembleIssue at h
      dsimp only at h
      simp at h
    | ok raw =>
      cases commentsFetch with
      | error e2 =>
        unfold assembleIssue at h
        dsimp only at h
        simp at h
      | ok cmts =>
        obtain ⟨ci, hci, hissue⟩ := assembleIssue_ok issueId raw cmts issue h
        have hepic : issue.epicLink = ci.epicLink := by rw [hissue]
        rw [hepic] at hel
        exact cleanIssue_ok_epicLink raw ci hci el hel

/-- C9 witness at a concrete issue carrying an epic link. -/
theorem claim_epic_failure_suppressed_witness :
    getIssueWithComments "T-1" (.ok rawEpicIssue) (.ok []) (fun _ => .error "boom") =
      .ok epicIssueResult ∧
    (IssueRef.mk "EPIC-1" "EPIC-1" none).summary = none :=
  claim_epic_failure_suppressed "T-1" (.ok rawEpicIssue) (.ok []) "boom"
    epicIssueResult (IssueRef.mk "EPIC-1" "EPIC-1" none) (by rfl) (by rfl)

/-- C10: building an ADF body from plain text and extracting text back
is the identity round trip. -/
theorem claim_adf_round_trip :
    ∀ t : String, extractTextContentList (createAdfFromBody t).content = t := by
  intro t
  have h1 : extractTextContentList (createAdfFromBody t).content = (t ++ "") ++ "" := rfl
  rw [h1, String.append_empty, String.append_empty]

theorem keyMatchAt_some (s m r : List Char) (h : keyMatchAt s = some (m, r)) :
    isIssueKeyShape m ∧ m ++ r = s := by
  unfold keyMatchAt at h
  cases hd : s.dropWhile isUpperAZ with
  | nil => rw [hd] at h; simp at h
  | cons c rest2 =>
    rw [hd] at h
    dsimp only at h
    by_cases hc : c = '-'
    · rw [if_pos hc] at h
      by_cases hlet : s.takeWhile isUpperAZ = []
      · rw [if_pos hlet] at h; simp at h
      · rw [if_neg hlet] at h
        by_cases hdig : rest2.takeWhile isDigit09 = []
        · rw [if_pos hdig] at h; simp at h
        · rw [if_neg hdig] at h
          subst hc
          cases h
          constructor
          · exact ⟨s.takeWhile isUpperAZ, rest2.takeWhile isDigit09, rfl, hlet, hdig,
              fun c hc => List.mem_takeWhile_imp hc,
              fun c hc => List.mem_takeWhile_imp hc⟩
          · rw [List.append_assoc, List.cons_append,
              List.takeWhile_append_dropWhile isDigit09 rest2, ← hd]
            exact List.takeWhile_append_dropWhile isUpperAZ s
    · rw [if_neg hc] at h; simp at h

theorem takeWhile_all_append (p : Char → Bool) :
    ∀ (a : List Char) (c : Char) (t : List Char),
    (∀ x ∈ a, p x = true) → p c = false →
    (a ++ c :: t).takeWhile p = a ∧ (a ++ c :: t).dropWhile p = c :: t
  | [], c, t, _, hc => by
    constructor
    · show (c :: t).takeWhile p = []
      rw [List.takeWhile_cons_of_neg (by simp [hc])]
    · show (c :: t).dropWhile p = c :: t
      rw [List.dropWhile_cons_of_neg (by simp [hc])]
  | x :: a, c, t, hall, hc => by
    have hx : p x = true := hall x (List.mem_cons_self x a)
    have ih := takeWhile_all_append p a c t
      (fun y hy => hall y (List.mem_cons_of_mem x hy)) hc
    constructor
    · show ((x :: (a ++ c :: t)).takeWhile p) = x :: a
      rw [List.takeWhile_cons_of_pos hx, ih.1]
    · show ((x :: (a ++ c :: t)).dropWhile p) = c :: t
      rw [List.dropWhile_cons_of_pos hx, ih.2]

theorem keyMatchAt_of_valid (a b rest : List Char) (ha : a ≠ []) (hb : b ≠ [])
    (hua : ∀ c ∈ a, isUpperAZ c = true) (hdb : ∀ c ∈ b, isDigit09 c = true) :
    ∃ m r, keyMatchAt (a ++ '-' :: (b ++ rest)) = some (m, r) := by
  have hdash : isUpperAZ '-' = false := by decide
  obtain ⟨htake, hdrop⟩ := takeWhile_all_append isUpperAZ a '-' (b ++ rest) hua hdash
  unfold keyMatchAt
  rw [hdrop]
  dsimp only
  rw [if_pos rfl, htake, if_neg ha]
  have hdig : (b ++ rest).takeWhile isDigit09 ≠ [] := by
    cases b with
    | nil => exact absurd rfl hb
    | cons d b2 =>
      have hd : isDigit09 d = true := hdb d (List.mem_cons_self d b2)
      show ((d :: (b2 ++ rest)).takeWhile isDigit09) ≠ []
      rw [List.takeWhile_cons_of_pos hd]
      simp
  rw [if_neg hdig]
  exact ⟨_, _, rfl⟩

theorem scanKeysAux_sound :
    ∀ (fuel : Nat) (s k : List Char), k ∈ scanKeysAux fuel s →
      isIssueKeyShape k ∧ k <:+: s := by
  intro fuel
  induction fuel with
  | zero => intro s k hk; simp [scanKeysAux] at hk
  | succ fuel ih =>
    intro s k hk
    cases s with
    | nil => simp [scanKeysAux] at hk
    | cons c rest =>
      rw [scanKeysAux] at hk
      cases hm : keyMatchAt (c :: rest) with
      | some pr =>
        obtain ⟨m, after⟩ := pr
        rw [hm] at hk
        dsimp only at hk
        rcases List.mem_cons.1 hk with h1 | h1
        · subst h1
          obtain ⟨hshape, happ⟩ := keyMatchAt_some (c :: rest) k after hm
          exact ⟨hshape, ⟨[], after, by rw [List.nil_append, happ]⟩⟩
        · obtain ⟨hshape, hinf⟩ := ih after k h1
          exact ⟨hshape,
            hinf.trans (List.IsSuffix.isInfix ⟨m, (keyMatchAt_some (c :: rest) m after hm).2⟩)⟩
      | none =>
        rw [hm] at hk
        dsimp only at hk
        obtain ⟨hshape, hinf⟩ := ih rest k hk
        exact ⟨hshape, hinf.trans (List.IsSuffix.isInfix ⟨[c], rfl⟩)⟩

theorem scanKeysAux_complete :
    ∀ (fuel : Nat) (pre a b post : List Char),
    (pre ++ (a ++ '-' :: (b ++ post))).length ≤ fuel →
    a ≠ [] → b ≠ [] →
    (∀ c ∈ a, isUpperAZ c = true) → (∀ c ∈ b, isDigit09 c = true) →
    scanKeysAux fuel (pre ++ (a ++ '-' :: (b ++ post))) ≠ [] := by
  intro fuel
  induction fuel with
  | zero =>
    intro pre a b post hlen _ _ _ _
    exfalso
    have : 0 < (pre ++ (a ++ '-' :: (b ++ post))).length := by
      simp [List.length_append]
    omega
  | succ fuel ih =>
    intro pre a b post hlen ha hb hua hdb
    cases pre with
    | nil =>
      rw [List.nil_append] at hlen ⊢
      cases a with
      | nil => exact absurd rfl ha
      | cons a0 a2 =>
        obtain ⟨m, r, hm⟩ := keyMatchAt_of_valid (a0 :: a2) b post ha hb hua hdb
        rw [List.cons_append] at hm ⊢
        rw [scanKeysAux, hm]
        simp
    | cons p0 pre2 =>
      rw [List.cons_append] at hlen ⊢
      rw [scanKeysAux]
      cases hm : keyMatchAt (p0 :: (pre2 ++ (a ++ '-' :: (b ++ post)))) with
      | some pr =>
        obtain ⟨m, r⟩ := pr
        simp
      | none =>
        dsimp only
        apply ih pre2 a b post ?_ ha hb hua hdb
        rw [List.length_cons] at hlen
        omega

theorem scanKeys_sound (t k : List Char) (hk : k ∈ scanKeys t) :
    isIssueKeyShape k ∧ k <:+: t :=
  scanKeysAux_sound t.length t k hk

theorem scanKeys_complete (t k : List Char) (hshape : isIssueKeyShape k)
    (hinf : k <:+: t) : scanKeys t ≠ [] := by
  obtain ⟨a, b, hk, ha, hb, hua, hdb⟩ := hshape
  obtain ⟨pre, post, hsplit⟩ := hinf
  subst hk
  have ht : t = pre ++ (a ++ '-' :: (b ++ post)) := by
    rw [← hsplit]
    simp [List.append_assoc]
  rw [ht]
  exact scanKeysAux_complete _ pre a b post (Nat.le_refl _) ha hb hua hdb

theorem matchesLit_split (p : List Char) :
    ∀ (s : List Char), matchesLit p s = true → s = p ++ s.drop p.length := by
  induction p with
  | nil => intro s _; simp
  | cons c ps ih =>
    intro s h
    cases s with
    | nil => simp [matchesLit] at h
    | cons c2 rest =>
      rw [matchesLit, Bool.and_eq_true] at h
      have hc : c = c2 := eq_of_beq h.1
      subst hc
      have := ih rest h.2
      rw [List.cons_append, List.length_cons, List.drop_succ_cons]
      rw [← this]

theorem browseKeyAt_some (s k : List Char) (h : browseKeyAt s = some k) :
    isIssueKeyShape k ∧ ("/browse/".toList ++ k) <+: s := by
  unfold browseKeyAt at h
  by_cases hlit : matchesLit "/browse/".toList s = true
  · rw [if_pos hlit] at h
    cases hm : keyMatchAt (s.drop 8) with
    | none => rw [hm] at h; simp at h
    | some pr =>
      obtain ⟨m, r⟩ := pr
      rw [hm] at h
      dsimp only at h
      cases h
      obtain ⟨hshape, happ⟩ := keyMatchAt_some _ k r hm
      refine ⟨hshape, r, ?_⟩
      rw [List.append_assoc, happ]
      exact (matchesLit_split _ s hlit).symm
  · rw [if_neg hlit] at h; simp at h

theorem browseMatch_sound :
    ∀ (u k : List Char), browseMatch u = some k →
      isIssueKeyShape k ∧ ("/browse/".toList ++ k) <:+: u
  | [], k => by intro h; simp [browseMatch] at h
  | c :: rest, k => by
    intro h
    rw [browseMatch] at h
    cases hb : browseKeyAt (c :: rest) with
    | some m =>
      rw [hb] at h
      dsimp only at h
      cases h
      obtain ⟨hs, hp⟩ := browseKeyAt_some _ k hb
      exact ⟨hs, hp.isInfix⟩
    | none =>
      rw [hb] at h
      dsimp only at h
      obtain ⟨hs, hi⟩ := browseMatch_sound rest k h
      exact ⟨hs, hi.trans (List.IsSuffix.isInfix ⟨[c], rfl⟩)⟩

theorem browseKeyAt_of_valid (a b rest : List Char) (ha : a ≠ []) (hb : b ≠ [])
    (hua : ∀ c ∈ a, isUpperAZ c = true) (hdb : ∀ c ∈ b, isDigit09 c = true) :
    ∃ k, browseKeyAt ("/browse/".toList ++ (a ++ '-' :: (b ++ rest))) = some k := by
  unfold browseKeyAt
  rw [if_pos (matchesLit_self_append _ _)]
  rw [show (("/browse/".toList ++ (a ++ '-' :: (b ++ rest))).drop 8) =
      a ++ '-' :: (b ++ rest) from
      List.drop_left "/browse/".toList (a ++ '-' :: (b ++ rest))]
  obtain ⟨m, r, hm⟩ := keyMatchAt_of_valid a b rest ha hb hua hdb
  rw [hm]
  exact ⟨m, rfl⟩

theorem browseMatch_head (s : List Char) (k : List Char) (hne : s ≠ [])
    (h : browseKeyAt s = some k) : browseMatch s = some k := by
  cases s with
  | nil => exact absurd rfl hne
  | cons c rest => rw [browseMatch, h]

theorem browseMatch_complete :
    ∀ (pre a b post : List Char),
    a ≠ [] → b ≠ [] →
    (∀ c ∈ a, isUpperAZ c = true) → (∀ c ∈ b, isDigit09 c = true) →
    ∃ k, browseMatch (pre ++ ("/browse/".toList ++ (a ++ '-' :: (b ++ post)))) = some k
  | [], a, b, post => by
    intro ha hb hua hdb
    rw [List.nil_append]
    obtain ⟨k, hk⟩ := browseKeyAt_of_valid a b post ha hb hua hdb
    refine ⟨k, browseMatch_head _ k ?_ hk⟩
    intro hcontra
    rw [List.append_eq_nil] at hcontra
    exact absurd hcontra.1 (by decide)
  | p0 :: pre2, a, b, post => by
    intro ha hb hua hdb
    rw [List.cons_append, browseMatch]
    cases hbk : browseKeyAt (p0 :: (pre2 ++ ("/browse/".toList ++ (a ++ '-' :: (b ++ post))))) with
    | some m => exact ⟨m, rfl⟩
    | none =>
      dsimp only
      exact browseMatch_complete pre2 a b post ha hb hua hdb

/-- C6: during traversal the Mention Extractor emits, for a "text"
node, one mention per non-overlapping regex match in its text in
left-to-right order, and for an "inlineCard" node a mention whenever
its attrs.url contains /browse/ followed by an issue key; every key it
emits has the issue-key shape and occurs in the scanned input, and a
well-formed /browse/ key in the url forces an emission. The spec's
concrete examples pin the exact outputs. -/
theorem claim_traversal_emissions :
    (∀ (t k : List Char), k ∈ scanKeys t → isIssueKeyShape k ∧ k <:+: t) ∧
    (∀ (u k : List Char), browseMatch u = some k →
      isIssueKeyShape k ∧ ("/browse/".toList ++ k) <:+: u) ∧
    (∀ (s : String) (cid : Option String) (u : String) (a b post pre : List Char),
      u.toList = pre ++ ("/browse/".toList ++ (a ++ '-' :: (b ++ post))) →
      a ≠ [] → b ≠ [] →
      (∀ c ∈ a, isUpperAZ c = true) → (∀ c ∈ b, isDigit09 c = true) →
      ∃ k, processNode s cid (Node.mk (some "inlineCard") none (some u) []) =
          [{ key := String.mk k, type := "mention", source := s, commentId := cid }] ∧
        isIssueKeyShape k) ∧
    (∀ (s : String) (cid : Option String) (t : String), t ≠ "" →
      processNode s cid (Node.mk (some "text") (some t) none []) =
        (scanKeys t.toList).map fun k =>
          { key := String.mk k, type := "mention", source := s, commentId := cid }) ∧
    extractIssueMentions
        [Node.mk (some "inlineCard") none (some "https://x.atlassian.net/browse/ABC-123") []]
        "description" none =
      [{ key := "ABC-123", type := "mention", source := "description" }] ∧
    extractIssueMentions
        [Node.mk (some "text") (some "See PROJ-10 and PROJ-11, blocked by PROJ-10") none []]
        "description" none =
      [{ key := "PROJ-10", type := "mention", source := "description" },
       { key := "PROJ-11", type := "mention", source := "description" }] := by
  refine ⟨scanKeys_sound, browseMatch_sound, ?_, ?_, by decide, by decide⟩
  · intro s cid u a b post pre hu ha hb hua hdb
    have hne : u ≠ "" := by
      intro hu0
      subst hu0
      have h2 : pre ++ ("/browse/".toList ++ (a ++ '-' :: (b ++ post))) = [] := hu.symm
      rw [List.append_eq_nil] at h2
      have h3 := h2.2
      rw [List.append_eq_nil] at h3
      exact absurd h3.1 (by decide)
    obtain ⟨k, hk⟩ := browseMatch_complete pre a b post ha hb hua hdb
    refine ⟨k, ?_, ?_⟩
    · rw [processNode]
      have ht : textRuleMentions s cid (Node.mk (some "inlineCard") none (some u) []) = [] :=
        rfl
      have hp : processList s cid ([] : List Node) = [] := rfl
      rw [ht, hp, List.append_nil, List.append_nil]
      unfold inlineCardMentions
      have hcond : ((Node.mk (some "inlineCard") none (some u) []).typeTag ==
          some "inlineCard" && strTruthy (Node.mk (some "inlineCard") none (some u) []).urlVal)
          = true := by
        show ((some "inlineCard" == some "inlineCard") && strTruthy (some u)) = true
        simp [strTruthy, hne]
      rw [if_pos hcond]
      rw [show ((Node.mk (some "inlineCard") none (some u) []).urlVal.getD "") = u from rfl]
      rw [hu, hk]
    · exact (browseMatch_sound u.toList k (by rw [hu]; exact hk)).1
  · intro s cid t hne
    rw [processNode]
    have h1 : inlineCardMentions s cid (Node.mk (some "text") (some t) none []) = [] := rfl
    have h2 : processList s cid ([] : List Node) = [] := rfl
    rw [h1, h2, List.append_nil, List.nil_append]
    unfold textRuleMentions
    have hcond : ((Node.mk (some "text") (some t) none []).typeTag == some "text" &&
        strTruthy (Node.mk (some "text") (some t) none []).textVal) = true := by
      show ((some "text" == some "text") && strTruthy (some t)) = true
      simp [strTruthy, hne]
    rw [if_pos hcond]
    rfl

/-- C2 amended witness: the amended relationship rule applied to the
counterexample link, whose inward label wins over the populated
outward side. -/
theorem claim_link_relationship_amended_witness :
    mapLink linkCexC2 = .ok
      { key := "XYZ-9", type := "link", summary := none,
        relationship := some "is blocked by", source := "description" } :=
  claim_link_relationship_amended.1 linkCexC2 { key := "XYZ-9" } (by decide)

/-- C3 witness: the concatenation shape applied at the DUP-1 inputs. -/
theorem claim_relatedIssues_concat_witness :
    dupResult.relatedIssues =
      descMentionsOf dupIssue ++ linkMentionsOf dupIssue ++ commentMentionsOf [dupComment] :=
  claim_relatedIssues_concat.1 "D" dupIssue [dupComment] (fun _ => .error "x") dupResult
    (by rfl)

/-- C6 witness: the inlineCard completeness conjunct at the spec's
example url and the text conjunct at a concrete text. -/
theorem claim_traversal_emissions_witness :
    (∃ k, processNode "description" none
        (Node.mk (some "inlineCard") none (some "https://x.atlassian.net/browse/ABC-123") []) =
        [{ key := String.mk k, type := "mention", source := "description", commentId := none }] ∧
      isIssueKeyShape k) ∧
    processNode "description" none (Node.mk (some "text") (some "PROJ-1") none []) =
      (scanKeys "PROJ-1".toList).map fun k =>
        { key := String.mk k, type := "mention", source := "description", commentId := none } :=
  ⟨claim_traversal_emissions.2.2.1 "description" none "https://x.atlassian.net/browse/ABC-123"
      "ABC".toList "123".toList [] "https://x.atlassian.net".toList (by decide) (by decide)
      (by decide) (by decide) (by decide),
   claim_traversal_emissions.2.2.2.1 "description" none "PROJ-1" (by decide)⟩
